import Mathlib

/-!
# A verification development for the mixminion server core

This file gives a shallow embedding, in Lean 4, of the core server logic of
the mixminion repository (`lib/mixminion/ServerMain.py` and
`lib/mixminion/Modules.py`), together with theorems about the embedded
functions.

Modelling conventions:
* Python byte strings are `List Nat` (byte values 0..255 where it matters).
* Python dictionaries are association lists with Python's insert-or-replace
  and delete semantics (`dget`, `dset`, `ddel`).
* Python's `time.time()` and other environment inputs are explicit arguments.
* Fallible operations (dictionary `KeyError`, list indexing) return `Option`.
* Functions of the repository keep their source names where Lean allows.
* Loops whose termination is by a shrinking measure carry an explicit fuel
  argument, instantiated with a bound that provably suffices, so that every
  definition evaluates by kernel reduction.
-/

namespace Mixminion

/-- Python byte strings, as lists of byte values. -/
abbrev PyStr := List Nat

/-- Bytes of a Lean string literal, for embedding Python string constants. -/
def strBytes (s : String) : PyStr :=
  s.toList.map Char.toNat

/-! ## Python dictionary primitives

Association lists with Python `dict` semantics: lookup returns the first
binding, assignment replaces an existing binding in place or appends, and
deletion removes the binding. -/

/-- `d.get(k)` / `d[k]` as an `Option`: first binding for `k`, if any. -/
def dget {K V : Type} [DecidableEq K] : List (K × V) → K → Option V
  | [], _ => none
  | (k, v) :: rest, key => if k = key then some v else dget rest key

/-- `d[k] = v`: replace the binding for `k` in place, or append it. -/
def dset {K V : Type} [DecidableEq K] : List (K × V) → K → V → List (K × V)
  | [], k, v => [(k, v)]
  | (k0, v0) :: rest, k, v =>
      if k0 = k then (k, v) :: rest else (k0, v0) :: dset rest k v

/-- `del d[k]`: remove every binding for `k`. -/
def ddel {K V : Type} [DecidableEq K] (d : List (K × V)) (k : K) : List (K × V) :=
  d.filter (fun p => p.1 ≠ k)

/-! ## ServerKeyring: key intervals and live-key lookup

From `ServerMain.py`, class `ServerKeyring`.  `keyIntervals` is the sorted
list of `(valid_after, valid_until, keyset_name)` tuples built by
`checkKeys`. -/

/-- One entry of `ServerKeyring.keyIntervals`: the tuple
`(Valid-After, Valid-Until, keyset name)`. -/
structure KeyInterval where
  va : Int
  vu : Int
  name : String
deriving DecidableEq, Repr

/-- The Python 2 comparison `(when, None, None) < (va, vu, name)` used by
`bisect.bisect(self.keyIntervals, (when, None, None))`: tuples compare
lexicographically and `None` is smaller than every integer, so the probe is
below an interval iff `when ≤ va`. -/
def probeLt (t : Int) (k : KeyInterval) : Bool :=
  t ≤ k.va

/-- `bisect.bisect` (i.e. `bisect_right`) from the Python standard library:
the `while lo < hi` binary-search loop, returning the insertion point for
the probe `(t, None, None)`.  The loop shrinks `hi - lo` on every pass, so a
fuel of the list length bounds its iteration count. -/
def bisectLoop (a : List KeyInterval) (t : Int) : Nat → Nat → Nat → Nat
  | 0, lo, _ => lo
  | fuel + 1, lo, hi =>
      if lo < hi then
        if probeLt t (a.getD ((lo + hi) / 2) ⟨0, 0, ""⟩) then
          bisectLoop a t fuel lo ((lo + hi) / 2)
        else bisectLoop a t fuel ((lo + hi) / 2 + 1) hi
      else lo

/-- `bisect.bisect(keyIntervals, (t, None, None))`. -/
def bisect (a : List KeyInterval) (t : Int) : Nat :=
  bisectLoop a t a.length 0 a.length

/-- The lookup branch of `ServerKeyring._getLiveKey`: compute
`idx = bisect(keyIntervals, (when, None, None)) - 1` and return
`keyIntervals[idx]`, with Python's negative indexing (`idx = -1` wraps
around to the last element). -/
def liveKeyLookup (ivs : List KeyInterval) (t : Int) : Option KeyInterval :=
  let idx := bisect ivs t
  if idx = 0 then ivs.getLast? else ivs.get? (idx - 1)

/-- `ServerKeyring._getLiveKey(when)` with an explicit `when` argument:
returns `None` when there are no key intervals, and otherwise performs the
bisect lookup without touching the cache. -/
def getLiveKeyAt (ivs : List KeyInterval) (t : Int) : Option KeyInterval :=
  if ivs = [] then none else liveKeyLookup ivs t

/-- The mutable cache state of a `ServerKeyring`: the key intervals plus the
memoised `liveKey` / `nextKeyRotation` pair. -/
structure KeyringState where
  keyIntervals : List KeyInterval
  liveKey : Option KeyInterval
  nextKeyRotation : Int
deriving DecidableEq, Repr

/-- `ServerKeyring._getLiveKey()` with `when = None`: `when` becomes the
current time `now`; if `now < nextKeyRotation` the cached `liveKey` is
returned without any lookup; otherwise the bisect lookup runs and the cache
is updated with the found interval and its `Valid-Until` time. -/
def getLiveKeyNow (st : KeyringState) (now : Int) : Option KeyInterval × KeyringState :=
  if st.keyIntervals = [] then
    (none, { st with liveKey := none, nextKeyRotation := 0 })
  else if now < st.nextKeyRotation then
    (st.liveKey, st)
  else
    match liveKeyLookup st.keyIntervals now with
    | some k => (some k, { st with liveKey := some k, nextKeyRotation := k.vu })
    | none => (none, st)

/-- The key-interval list is sorted by its `valid_after` components, as
established by `keyIntervals.sort()` in `checkKeys` (tuples sort
lexicographically, so first components are nondecreasing). -/
def SortedByVa (ivs : List KeyInterval) : Prop :=
  ∀ j, j < ivs.length → ∀ i, i ≤ j →
    (ivs.getD i ⟨0, 0, ""⟩).va ≤ (ivs.getD j ⟨0, 0, ""⟩).va

instance decidableSortedByVa (ivs : List KeyInterval) : Decidable (SortedByVa ivs) := by
  unfold SortedByVa
  infer_instance

/-! ## ServerKeyring: key generation and retirement -/

/-- `sys.maxint` on a 64-bit platform: the `firstKey` sentinel installed by
`checkKeys` when no key directory exists. -/
def maxint : Nat := 2 ^ 63 - 1

/-- The key-numbering loop of `ServerKeyring.createKeys(num)`: starting from
the scanned `keyRange = (firstKey, lastKey)` (which is `(maxint, 0)` when no
key directories exist), return the list of integer key names assigned to the
`num` freshly generated keysets, in generation order.  Each pass assigns
`1` when no keys exist, `firstKey - 1` while `firstKey > 1`, and
`lastKey + 1` otherwise, updating the range. -/
def createKeysNums : Nat → Nat → Nat → List Nat
  | 0, _, _ => []
  | num + 1, firstKey, lastKey =>
      if firstKey = maxint then 1 :: createKeysNums num 1 1
      else if 1 < firstKey then
        (firstKey - 1) :: createKeysNums num (firstKey - 1) lastKey
      else (lastKey + 1) :: createKeysNums num firstKey (lastKey + 1)

/-- The claim's numbering rule, in its own words: the lowest integer
name `≥ 1` not already used by an existing keyset (fuel-bounded scan). -/
def lowestUnusedFrom (existing : List Nat) : Nat → Nat → Nat
  | 0, c => c
  | fuel + 1, c => if c ∈ existing then lowestUnusedFrom existing fuel (c + 1) else c

/-- The lowest unused integer key name, starting the scan at `1`. -/
def lowestUnused (existing : List Nat) : Nat :=
  lowestUnusedFrom existing (existing.length + 1) 1

/-- `ServerKeyring.removeDeadKeys`, reduced to its observable actions.
`dirs` lists the directories of the keysets filtered by
`vu < now - keySloppiness`; the loop `for dirname, (va, vu, name) in
zip(dirs, self.keyIntervals)` then securely deletes each `dirname` while
logging the name and validity interval taken from the FULL interval list.
Directories are represented by their keyset names (the path
`os.path.join(keyDir, "key_" + name)` determines them injectively).
Result: (keyset names whose directories are deleted, `(name, va, vu)` log
records emitted alongside the deletions, in order). -/
def removeDeadKeysActions (ivs : List KeyInterval) (now sloppiness : Int) :
    List String × List (String × Int × Int) :=
  let cutoff := now - sloppiness
  let dirs := ivs.filter (fun k => k.vu < cutoff)
  ((List.zip dirs ivs).map (fun p => p.1.name),
   (List.zip dirs ivs).map (fun p => (p.2.name, p.2.va, p.2.vu)))

/-- `ServerKeyring.removeIdentityKey`: delete the identity key if present
(after a logged 10-second pause, not modelled); then `os.path.exists('dhfile')`
tests the LITERAL string `'dhfile'` (a relative path in the working
directory), not the computed `dhfile` path, and on success securely deletes
the computed DH parameter path.  `fs` is the set of existing paths; the
result lists the paths passed to `secureDelete`, in order. -/
def removeIdentityKey (homeDir keyDir : String) (fs : List String) : List String :=
  let fn := keyDir ++ "/identity.key"
  let dels1 := if fn ∈ fs then [fn] else []
  let dhfile := homeDir ++ "/work/tls/dhparam"
  let dels2 := if "dhfile" ∈ fs then [dhfile] else []
  dels1 ++ dels2

/-! ## ModuleManager

From `Modules.py`, class `ModuleManager`.  A module is reduced to the two
attributes the manager's bookkeeping consults: its name (`getName()`) and
its claimed exit types (`getExitTypes()`). -/

/-- A delivery module, as seen by `ModuleManager`'s bookkeeping. -/
structure Module where
  name : String
  exitTypes : List Nat
deriving DecidableEq, Repr

/-- The byte string `'err'`, the sentinel tag for corrupt messages. -/
def errTag : PyStr := strBytes "err"

/-- One entry placed on a module's delivery queue by
`queue.queueDeliveryMessage((exitType, address, tag), message)`. -/
structure QueueEntry where
  exitType : Nat
  address : PyStr
  tag : Option PyStr
  message : PyStr
deriving DecidableEq, Repr

/-- The `ModuleManager` fields that `enableModule`, `disableModule` and
`queueMessage` read and write: `typeToModule`, `queues` (module name to the
entries of its delivery queue) and `enabled`. -/
structure MMState where
  typeToModule : List (Nat × Module)
  queues : List (String × List QueueEntry)
  enabled : List (String × Nat)
deriving DecidableEq, Repr

/-- `ModuleManager.__init__`: `typeToModule`, `queues` and `enabled` all
start empty (`registerModule` touches only `syntax`, `modules` and
`nameToModule`). -/
def mmInit : MMState :=
  ⟨[], [], []⟩

/-- `ModuleManager.enableModule(module)`: map each claimed exit type to the
module (a conflicting existing binding is overwritten, with a warning);
then create the module's delivery queue (fresh, modelled empty) and mark
the module enabled. -/
def enableModule (st : MMState) (m : Module) : MMState :=
  { typeToModule := m.exitTypes.foldl (fun acc t => dset acc t m) st.typeToModule,
    queues := dset st.queues m.name [],
    enabled := dset st.enabled m.name 1 }

/-- One pass of `disableModule`'s loop over the module's exit types: remove
the binding for `t` only when its current module has the disabled module's
name. -/
def disableStep (name : String) (acc : List (Nat × Module)) (t : Nat) :
    List (Nat × Module) :=
  match dget acc t with
  | some mod => if mod.name = name then ddel acc t else acc
  | none => acc

/-- `ModuleManager.disableModule(module)`: unmap each of the module's exit
types whose current binding carries the module's name, then delete the
module's queue and enabled entries (when present; `ddel` is a no-op
otherwise). -/
def disableModule (st : MMState) (m : Module) : MMState :=
  { typeToModule := m.exitTypes.foldl (disableStep m.name) st.typeToModule,
    queues := ddel st.queues m.name,
    enabled := ddel st.enabled m.name }

/-- The three outcomes of `mixminion.BuildMessage.decodePayload(message,
tag)` (a collaborator outside the two source files, so a parameter here): a
decoded cleartext payload, `None` (still encrypted), or a raised
`MixError`. -/
inductive DecodeOutcome
  | ok (payload : PyStr)
  | stillEncrypted
  | raisesMixError
deriving DecidableEq, Repr

/-- The payload decoder, as a parameter of `queueMessage`. -/
abbrev Decoder := PyStr → Option PyStr → DecodeOutcome

/-- `ModuleManager.queueMessage(message, tag, exitType, address)`: look up
the module for the exit type (absent: log an error and return unchanged);
fetch its queue (`self.queues[mod.getName()]` — a missing key raises
`KeyError`, modelled as `none`); then enqueue one entry whose tag and
payload are decided by `decodePayload`: a raised `MixError` enqueues
`(exitType, address, 'err')` with the ciphertext, a `None` result enqueues
the original tag with the ciphertext, and a decoded payload enqueues tag
`None` with the cleartext. -/
def queueMessage (decode : Decoder) (st : MMState) (message : PyStr)
    (tag : Option PyStr) (exitType : Nat) (address : PyStr) : Option MMState :=
  match dget st.typeToModule exitType with
  | none => some st
  | some mod =>
      match dget st.queues mod.name with
      | none => none
      | some q =>
          match decode message tag with
          | .raisesMixError =>
              let q2 := q ++ [⟨exitType, address, some errTag, message⟩]
              some { st with queues := dset st.queues mod.name q2 }
          | .stillEncrypted =>
              let q2 := q ++ [⟨exitType, address, tag, message⟩]
              some { st with queues := dset st.queues mod.name q2 }
          | .ok payload =>
              let q2 := q ++ [⟨exitType, address, none, payload⟩]
              some { st with queues := dset st.queues mod.name q2 }

/-- The invariant of claim C10: every exit type bound in `typeToModule`
names a module whose queue exists. -/
def QueuesInv (st : MMState) : Prop :=
  ∀ p ∈ st.typeToModule, (dget st.queues p.2.name).isSome = true

instance decidableQueuesInv (st : MMState) : Decidable (QueuesInv st) := by
  unfold QueuesInv
  infer_instance

/-! ## MixPool

From `ServerMain.py`, class `MixPool`.  The wrapped `*MixQueue` (from
`mixminion.Queue`, outside the source files) stores objects under opaque
handles; `getBatch` is the pluggable mix algorithm, so the batch is a
parameter here. -/

/-- The two shapes of object stored in the mix pool by the packet handler:
`('EXIT', (routingtype, routinginfo, application_key, tag, payload))` or
`('QUEUE', (ipv4, msg))`.  `MixPool.mix` asserts every non-EXIT object is
QUEUE, so a two-constructor type is exact. -/
inductive MixObject
  | exit (rt : Nat) (ri : PyStr) (appKey : PyStr) (tag : Option PyStr) (payload : PyStr)
  | queue (ipv4 : Nat × Nat × PyStr) (msg : PyStr)
deriving DecidableEq, Repr

/-- The state `MixPool.mix` reads and writes: the pool's handle-indexed
store, the outgoing queue's entries (`queueDeliveryMessage(ipv4, msg)`
appends), and the module manager. -/
structure MixServerState where
  pool : List (Nat × MixObject)
  outgoing : List ((Nat × Nat × PyStr) × PyStr)
  modules : MMState
deriving DecidableEq, Repr

/-- One pass of `MixPool.mix`'s loop for handle `h`: fetch the stored
object (`getObject` raises on a missing handle, modelled `none`), route it —
EXIT to `moduleManager.queueMessage(payload, tag, rt, ri)`, QUEUE to
`outgoingQueue.queueDeliveryMessage(ipv4, msg)` — then remove the handle
from the pool. -/
def mixStep (decode : Decoder) (st : MixServerState) (h : Nat) :
    Option MixServerState :=
  match dget st.pool h with
  | none => none
  | some (.exit rt ri _ tag payload) =>
      match queueMessage decode st.modules payload tag rt ri with
      | none => none
      | some mm => some { st with modules := mm, pool := ddel st.pool h }
  | some (.queue ipv4 msg) =>
      some { st with outgoing := st.outgoing ++ [(ipv4, msg)],
                     pool := ddel st.pool h }

/-- `MixPool.mix()`: process the batch of handles chosen by the mix
algorithm (`self.queue.getBatch()`), in order. -/
def mix (decode : Decoder) (st : MixServerState) : List Nat → Option MixServerState
  | [] => some st
  | h :: rest =>
      match mixStep decode st h with
      | none => none
      | some st2 => mix decode st2 rest

/-- The relayed (QUEUE) messages of a batch, read off the pool store in
batch order: what the claim says the outgoing queue must receive. -/
def relayOutputs (pool : List (Nat × MixObject)) (batch : List Nat) :
    List ((Nat × Nat × PyStr) × PyStr) :=
  batch.filterMap (fun h =>
    match dget pool h with
    | some (.queue ipv4 msg) => some (ipv4, msg)
    | _ => none)

/-- The exit (EXIT) dispatch arguments of a batch, read off the pool store
in batch order: `(payload, tag, routingtype, routinginfo)` as passed to
`queueMessage`. -/
def exitCalls (pool : List (Nat × MixObject)) (batch : List Nat) :
    List (PyStr × Option PyStr × Nat × PyStr) :=
  batch.filterMap (fun h =>
    match dget pool h with
    | some (.exit rt ri _ tag payload) => some (payload, tag, rt, ri)
    | _ => none)

/-- Folding `queueMessage` over a list of exit dispatch arguments. -/
def routeExits (decode : Decoder) : MMState →
    List (PyStr × Option PyStr × Nat × PyStr) → Option MMState
  | mm, [] => some mm
  | mm, (payload, tag, rt, ri) :: rest =>
      match queueMessage decode mm payload tag rt ri with
      | none => none
      | some mm2 => routeExits decode mm2 rest

/-! ## IncomingQueue

From `ServerMain.py`, class `IncomingQueue`. -/

/-- The observed result of `PacketHandler.processMessage` inside
`IncomingQueue._deliverMessages`: `None` (padding), a mix-pool object, or
one of the three caught exception classes. -/
inductive ProcessResult
  | padding
  | ok (res : MixObject)
  | cryptoError
  | parseError
  | contentError
deriving DecidableEq, Repr

/-- The observable outcome of one `_deliverMessages` drain: objects inserted
into the mix pool (in order), handles passed to `deliverySucceeded`, and
handles passed to `deliveryFailed`. -/
structure DeliverOutcome where
  poolAdds : List MixObject
  succeeded : List Nat
  failed : List Nat
deriving DecidableEq, Repr

/-- `IncomingQueue._deliverMessages(msgList)`: for each `(handle, message)`
pair, run the packet handler; `None` (padding) is only logged — neither the
pool insert nor either acknowledgement runs; a successful result is
inserted into the mix pool and the handle acknowledged with
`deliverySucceeded`; each of the three caught errors acknowledges the
handle with `deliveryFailed`. -/
def deliverMessages (ph : PyStr → ProcessResult) :
    List (Nat × PyStr) → DeliverOutcome
  | [] => ⟨[], [], []⟩
  | (h, m) :: rest =>
      let o := deliverMessages ph rest
      match ph m with
      | .padding => o
      | .ok res => ⟨res :: o.poolAdds, h :: o.succeeded, o.failed⟩
      | _ => ⟨o.poolAdds, o.succeeded, h :: o.failed⟩

/-- Modelled from the spec: the `DeliveryQueue` base class lives in
`mixminion.Queue`, which is not among the source files.  Per the spec
(§4.1), `succeeded(handle)` removes an entry and `failed(handle, retriable)`
either reschedules or removes it; an entry acknowledged by neither call
stays queued on disk.  `remainsPending` keeps every drained entry that
received no acknowledgement at all — those certainly remain, under either
reading of `failed`. -/
def remainsPending (entries : List (Nat × PyStr)) (o : DeliverOutcome) :
    List (Nat × PyStr) :=
  entries.filter (fun e => ¬ (e.1 ∈ o.succeeded ∨ e.1 ∈ o.failed))

/-! ## Message-body escaping

From `Modules.py`: `isPrintable`, `_escapeMessage`,
`_escapeMessageForEmail`, and the behaviour of Python 2's
`base64.encodestring` (57-byte chunks, each encoded by
`binascii.b2a_base64`, which appends a newline). -/

/-- The `_nonprinting` byte set: `range(0x00, 0x07) + range(0x0E, 0x20)`. -/
def nonprinting (b : Nat) : Bool :=
  b < 0x07 || (0x0E ≤ b && b < 0x20)

/-- `isPrintable(s)`: `s.translate(_allChars, _nonprinting)` deletes exactly
the non-printing bytes, and the result's length equals `len(s)` iff none
occurred. -/
def isPrintable (s : PyStr) : Bool :=
  (s.filter (fun b => !nonprinting b)).length == s.length

/-- The base64 alphabet as byte values: `A`–`Z`, `a`–`z`, `0`–`9`, `+`, `/`. -/
def b64alphabet : PyStr :=
  (List.range 26).map (fun i => i + 65) ++ (List.range 26).map (fun i => i + 97) ++
    (List.range 10).map (fun i => i + 48) ++ [43, 47]

/-- The byte encoding a six-bit value. -/
def b64char (n : Nat) : Nat :=
  b64alphabet.getD n 0

/-- The byte value of the padding character `=`. -/
def padChar : Nat := 61

/-- The byte value of the newline appended by `binascii.b2a_base64`. -/
def nlChar : Nat := 10

/-- Position of a byte in the base64 alphabet, scanning from index `i`. -/
def b64valFrom : PyStr → Nat → Nat → Option Nat
  | [], _, _ => none
  | a :: rest, c, i => if a = c then some i else b64valFrom rest c (i + 1)

/-- The six-bit value decoded from an alphabet byte, if any. -/
def b64val (c : Nat) : Option Nat :=
  b64valFrom b64alphabet c 0

/-- Core base64 encoding of a byte string, three bytes to four characters,
with `=` padding on a short final group (as in `binascii.b2a_base64`,
newline aside). -/
def encGroups : PyStr → PyStr
  | [] => []
  | [a] => [b64char (a / 4), b64char (a % 4 * 16), padChar, padChar]
  | [a, b] =>
      [b64char (a / 4), b64char (a % 4 * 16 + b / 16), b64char (b % 16 * 4), padChar]
  | a :: b :: c :: rest =>
      b64char (a / 4) :: b64char (a % 4 * 16 + b / 16) ::
        b64char (b % 16 * 4 + c / 64) :: b64char (c % 64) :: encGroups rest

/-- The chunking loop of `base64.encodestring`: encode successive
`MAXBINSIZE = 57`-byte chunks, appending a newline to each chunk's
encoding.  One fuel unit per chunk round; `s.length` units suffice. -/
def encodestringFuel : Nat → PyStr → PyStr
  | 0, _ => []
  | fuel + 1, s =>
      if s = [] then []
      else encGroups (s.take 57) ++ nlChar :: encodestringFuel fuel (s.drop 57)

/-- `base64.encodestring(s)`. -/
def encodestring (s : PyStr) : PyStr :=
  encodestringFuel s.length s

/-- Whether a byte survives `binascii.a2b_base64`'s scanner: alphabet bytes
and the padding byte are processed, everything else (newlines included) is
skipped. -/
def isB64OrPad (c : Nat) : Bool :=
  (b64val c).isSome || c = padChar

/-- Decoding of a stream of base64 groups: four characters to three bytes,
with trailing `=` padding shortening the final group; malformed input
yields `none`. -/
def decGroups : PyStr → Option PyStr
  | [] => some []
  | c1 :: c2 :: c3 :: c4 :: rest =>
      match b64val c1, b64val c2 with
      | some s1, some s2 =>
          if c3 = padChar then
            if c4 = padChar then
              if rest = [] then some [s1 * 4 + s2 / 16] else none
            else none
          else
            match b64val c3 with
            | some s3 =>
                if c4 = padChar then
                  if rest = [] then some [s1 * 4 + s2 / 16, s2 % 16 * 16 + s3 / 4]
                  else none
                else
                  match b64val c4 with
                  | some s4 =>
                      (decGroups rest).map
                        (fun tail => (s1 * 4 + s2 / 16) :: (s2 % 16 * 16 + s3 / 4) ::
                          (s3 % 4 * 64 + s4) :: tail)
                  | none => none
            | none => none
      | _, _ => none
  | _ => none

/-- `base64.decodestring(s)`: skip bytes outside the alphabet (newlines in
particular), then decode the four-character groups. -/
def decodestring (s : PyStr) : Option PyStr :=
  decGroups (s.filter isB64OrPad)

/-- Whitespace bytes for Python's `str.strip()`. -/
def isSpaceByte (b : Nat) : Bool :=
  b = 32 || b = 9 || b = 10 || b = 13 || b = 11 || b = 12

/-- Python's `s.strip()`: drop leading and trailing whitespace bytes. -/
def pyStrip (s : PyStr) : PyStr :=
  ((s.dropWhile isSpaceByte).reverse.dropWhile isSpaceByte).reverse

/-- The classification codes of `_escapeMessage`. -/
inductive EscCode
  | TXT
  | BIN
  | ENC
deriving DecidableEq, Repr

/-- `_escapeMessage(message, tag, text)`: a tag of `'err'` yields `None`; a
present tag classifies `ENC`; otherwise `TXT` when every byte is printable,
else `BIN`.  In text mode a non-`TXT` message is base64-encoded and a
present tag base64-encoded and stripped. -/
def escapeMessage (message : PyStr) (tag : Option PyStr) (text : Bool) :
    Option (EscCode × PyStr × Option PyStr) :=
  if tag = some errTag then none
  else
    match tag with
    | some tg =>
        some (EscCode.ENC,
          if text then encodestring message else message,
          some (if text then pyStrip (encodestring tg) else tg))
    | none =>
        if isPrintable message then some (EscCode.TXT, message, none)
        else some (EscCode.BIN, if text then encodestring message else message, none)

/-- The delimiter line `============ ANONYMOUS MESSAGE BEGINS` with its
newline, as laid out by `_escapeMessageForEmail`'s format string. -/
def msgBegins : PyStr :=
  strBytes "============ ANONYMOUS MESSAGE BEGINS\n"

/-- The delimiter line `============ ANONYMOUS MESSAGE ENDS` with its
newline. -/
def msgEnds : PyStr :=
  strBytes "============ ANONYMOUS MESSAGE ENDS\n"

/-- The explanatory paragraph prepended for `ENC` messages (byte 39 is the
apostrophe). -/
def junkMsg : PyStr :=
  strBytes "This message is not in plaintext.  It" ++ [39] ++
    strBytes "s either 1) a reply; 2) a forward\nmessage encrypted to you; or 3) junk.\n\n"

/-- The `Decoding handle: ` line prefix. -/
def decodingHandle : PyStr :=
  strBytes "Decoding handle: "

/-- `_escapeMessageForEmail(msg, tag)`: escape the message; prepend the
junk paragraph for `ENC`, a decoding-handle line when a tag is present, and
wrap the body between the ANONYMOUS MESSAGE delimiters. -/
def escapeMessageForEmail (msg : PyStr) (tag : Option PyStr) : Option PyStr :=
  match escapeMessage msg tag true with
  | none => none
  | some (code, msg2, tag2) =>
      let junk := if code = EscCode.ENC then junkMsg else []
      let tagLine :=
        match tag2 with
        | some t => decodingHandle ++ t ++ [nlChar]
        | none => []
      some (junk ++ msgBegins ++ tagLine ++ msg2 ++ msgEnds)

/-! ## ServerLoop

From `ServerMain.py`, `MixminionServer.run`: the sequence of actions one
iteration of the `while 1` loop performs. -/

/-- The observable actions of the main loop. -/
inductive LoopEvent
  | netProcess
  | incomingSend
  | syncLogs
  | mixBatch
  | outgoingSend
  | moduleSend
  | cleanQueues
deriving DecidableEq, Repr

/-- The inner `while time.time() < nextMix` wait: each round services one
network tick (`mmtpServer.process(1)`) and drains the incoming queue into
the packet handler and mix pool (`incomingQueue.sendReadyMessages()`).
`polls` is the number of rounds until the mix interval elapses. -/
def waitPhase : Nat → List LoopEvent
  | 0 => []
  | n + 1 => LoopEvent.netProcess :: LoopEvent.incomingSend :: waitPhase n

/-- One iteration of `MixminionServer.run`'s main loop: the wait phase until
the mix interval elapses, then `packetHandler.syncLogs()`, then
`mixPool.mix()` (which distributes the tick's batch to the outgoing queue
and the module manager), then `outgoingQueue.sendReadyMessages()` and
`moduleManager.sendReadyMessages()`, and finally the queue cleaning when
the shred interval has passed. -/
def loopIteration (polls : Nat) (shred : Bool) : List LoopEvent :=
  waitPhase polls ++
    [LoopEvent.syncLogs, LoopEvent.mixBatch, LoopEvent.outgoingSend,
      LoopEvent.moduleSend] ++
    (if shred then [LoopEvent.cleanQueues] else [])

/-! ## Concrete instances used by witnesses and counterexamples -/

/-- Two key intervals, the second starting at time 30. -/
def c2Intervals : List KeyInterval :=
  [⟨10, 20, "0001"⟩, ⟨30, 40, "0002"⟩]

/-- Key intervals sorted by `valid_after` where the expired one is not a
prefix: the first interval outlives the second. -/
def c8Intervals : List KeyInterval :=
  [⟨0, 100, "0001"⟩, ⟨10, 20, "0002"⟩]

/-- A module named `A` claiming exit type 1. -/
def c10ModA : Module :=
  ⟨"A", [1]⟩

/-- A second module, also named `A`, claiming exit type 2. -/
def c10ModB : Module :=
  ⟨"A", [2]⟩

/-- Both same-named modules enabled. -/
def c10Enabled : MMState :=
  enableModule (enableModule mmInit c10ModA) c10ModB

/-- ... and the second of them disabled again. -/
def c10Broken : MMState :=
  disableModule c10Enabled c10ModB

/-- An MBOX-like module for the dispatch witness. -/
def c4Module : Module :=
  ⟨"MBOX", [257]⟩

/-- A manager state with the MBOX-like module enabled for exit type 257. -/
def c4State : MMState :=
  enableModule mmInit c4Module

/-- A decoder that decodes every payload to the bytes `hi`. -/
def c4Decoder : Decoder :=
  fun _ _ => DecodeOutcome.ok [104, 105]

/-- A mix-pool state holding one exit object and one relay object. -/
def c6State : MixServerState :=
  { pool := [(1, MixObject.exit 257 [97] [] none [5, 6]),
             (2, MixObject.queue (127, 48099, [9]) [7, 8])],
    outgoing := [],
    modules := c4State }

/-- A packet handler mapping message `[0]` to padding, `[1]` to a relay
object, and everything else to a content error. -/
def c3Handler : PyStr → ProcessResult :=
  fun m =>
    if m = [0] then ProcessResult.padding
    else if m = [1] then ProcessResult.ok (MixObject.queue (1, 2, []) [3])
    else ProcessResult.contentError

/-- The incoming batch drained in the C3 scenario: a relay message, a
padding message, and a malformed message. -/
def c3Batch : List (Nat × PyStr) :=
  [(1, [1]), (2, [0]), (3, [9])]

/-- A filesystem on which the DH parameter file exists but the literal path
`dhfile` does not. -/
def c9Fs : List String :=
  ["home/work/tls/dhparam"]

/-- A decoder reporting every message still encrypted. -/
def c10Decoder : Decoder :=
  fun _ _ => DecodeOutcome.stillEncrypted

/-- The state `mix` produces from `c6State` on the batch `[1, 2]`. -/
def c6Final : MixServerState :=
  { pool := [],
    outgoing := [((127, 48099, [9]), [7, 8])],
    modules := ⟨[(257, c4Module)],
                [("MBOX", [⟨257, [97], none, [104, 105]⟩])],
                [("MBOX", 1)]⟩ }

/-! # Theorems -/

theorem dget_dset_self {K V : Type} [DecidableEq K] (d : List (K × V)) (k : K) (v : V) :
    dget (dset d k v) k = some v := by
  induction d with
  | nil => simp [dget, dset]
  | cons hd tl ih =>
      by_cases h : hd.1 = k
      · simp [dset, h, dget]
      · simp [dset, h, dget, ih]

theorem dget_dset_ne {K V : Type} [DecidableEq K] (d : List (K × V)) (k k0 : K) (v : V)
    (h : k0 ≠ k) : dget (dset d k v) k0 = dget d k0 := by
  induction d with
  | nil => simp [dget, dset, Ne.symm h]
  | cons hd tl ih =>
      by_cases hh : hd.1 = k
      · subst hh
        have h2 : ¬ hd.1 = k0 := fun h2 => h h2.symm
        simp [dset, dget, h2]
      · by_cases h2 : hd.1 = k0
        · simp [dset, hh, dget, h2, h]
        · simp [dset, hh, dget, h2, ih]

theorem dget_ddel_self {K V : Type} [DecidableEq K] (d : List (K × V)) (k : K) :
    dget (ddel d k) k = none := by
  induction d with
  | nil => simp [dget, ddel]
  | cons hd tl ih =>
      by_cases h : hd.1 = k
      · simpa [ddel, h] using ih
      · simpa [ddel, h, dget] using ih

theorem dget_ddel_ne {K V : Type} [DecidableEq K] (d : List (K × V)) (k k0 : K)
    (h : k0 ≠ k) : dget (ddel d k) k0 = dget d k0 := by
  induction d with
  | nil => simp [dget, ddel]
  | cons hd tl ih =>
      by_cases hh : hd.1 = k
      · subst hh
        have h2 : ¬ hd.1 = k0 := fun h2 => h h2.symm
        simpa [ddel, dget, h2] using ih
      · by_cases h2 : hd.1 = k0
        · simp [ddel, dget, hh, h2, h, List.filter_cons]
        · simpa [ddel, dget, hh, h2, List.filter_cons] using ih

/-- Loop invariant of the `bisect_right` binary search: everything left of
`lo` is strictly below the probe, everything from `hi` on is at or above it;
the returned insertion point separates the list the same way. -/
theorem bisectLoop_inv (a : List KeyInterval) (t : Int) (fuel lo hi : Nat)
    (hfuel : hi - lo ≤ fuel) (hlohi : lo ≤ hi) (hhi : hi ≤ a.length)
    (hsort : SortedByVa a)
    (hlow : ∀ i, i < lo → (a.getD i ⟨0, 0, ""⟩).va < t)
    (hhigh : ∀ i, hi ≤ i → i < a.length → t ≤ (a.getD i ⟨0, 0, ""⟩).va) :
    lo ≤ bisectLoop a t fuel lo hi ∧ bisectLoop a t fuel lo hi ≤ hi ∧
    (∀ i, i < bisectLoop a t fuel lo hi → (a.getD i ⟨0, 0, ""⟩).va < t) ∧
    (∀ i, bisectLoop a t fuel lo hi ≤ i → i < a.length →
      t ≤ (a.getD i ⟨0, 0, ""⟩).va) := by
  induction fuel generalizing lo hi with
  | zero =>
      have hle : lo = hi := by omega
      subst hle
      exact ⟨Nat.le_refl _, Nat.le_refl _, hlow, hhigh⟩
  | succ fuel ih =>
      by_cases hlt : lo < hi
      · have hmid1 : lo ≤ (lo + hi) / 2 := by omega
        have hmid2 : (lo + hi) / 2 < hi := by omega
        by_cases hp : probeLt t (a.getD ((lo + hi) / 2) ⟨0, 0, ""⟩) = true
        · have hstep : bisectLoop a t (fuel + 1) lo hi =
              bisectLoop a t fuel lo ((lo + hi) / 2) := by
            simp only [bisectLoop]
            rw [if_pos hlt, if_pos hp]
          rw [hstep]
          have hhigh2 : ∀ i, (lo + hi) / 2 ≤ i → i < a.length →
              t ≤ (a.getD i ⟨0, 0, ""⟩).va := by
            intro i hi1 hi2
            have hmono : (a.getD ((lo + hi) / 2) ⟨0, 0, ""⟩).va ≤
                (a.getD i ⟨0, 0, ""⟩).va := hsort i hi2 _ hi1
            have hpt : t ≤ (a.getD ((lo + hi) / 2) ⟨0, 0, ""⟩).va := by
              simpa [probeLt] using hp
            omega
          have hres := ih lo ((lo + hi) / 2) (by omega) hmid1 (by omega) hlow hhigh2
          exact ⟨hres.1, by omega, hres.2.2.1, hres.2.2.2⟩
        · have hstep : bisectLoop a t (fuel + 1) lo hi =
              bisectLoop a t fuel ((lo + hi) / 2 + 1) hi := by
            simp only [bisectLoop]
            rw [if_pos hlt, if_neg hp]
          rw [hstep]
          have hmlt : (a.getD ((lo + hi) / 2) ⟨0, 0, ""⟩).va < t := by
            have := hp
            simp only [probeLt, decide_eq_true_eq] at this
            omega
          have hlow2 : ∀ i, i < (lo + hi) / 2 + 1 → (a.getD i ⟨0, 0, ""⟩).va < t := by
            intro i hi1
            by_cases hcase : i < lo
            · exact hlow i hcase
            · have hle : i ≤ (lo + hi) / 2 := by omega
              have hmono : (a.getD i ⟨0, 0, ""⟩).va ≤
                  (a.getD ((lo + hi) / 2) ⟨0, 0, ""⟩).va := hsort _ (by omega) i hle
              omega
          have hres := ih ((lo + hi) / 2 + 1) hi (by omega) (by omega) hhi hlow2 hhigh
          exact ⟨by omega, hres.2.1, hres.2.2.1, hres.2.2.2⟩
      · have hle : lo = hi := by omega
        subst hle
        simp only [bisectLoop, hlt, if_false]
        exact ⟨Nat.le_refl _, Nat.le_refl _, hlow, hhigh⟩

/-- Characterization of `bisect` on a sorted list: the insertion point
splits the intervals into those with `valid_after` strictly below the query
time and those at or above it. -/
theorem bisect_inv (a : List KeyInterval) (t : Int) (hsort : SortedByVa a) :
    bisect a t ≤ a.length ∧
    (∀ i, i < bisect a t → (a.getD i ⟨0, 0, ""⟩).va < t) ∧
    (∀ i, bisect a t ≤ i → i < a.length → t ≤ (a.getD i ⟨0, 0, ""⟩).va) := by
  have h := bisectLoop_inv a t a.length 0 a.length (by omega) (by omega)
    (Nat.le_refl _) hsort (by intro i hi1; omega) (by intro i hi1 hi2; omega)
  exact ⟨h.2.1, h.2.2.1, h.2.2.2⟩

theorem getD_mem {α : Type} (l : List α) (i : Nat) (d : α) (h : i < l.length) :
    l.getD i d ∈ l := by
  induction l generalizing i with
  | nil => simp at h
  | cons hd tl ih =>
      cases i with
      | zero => simp [List.getD]
      | succ i =>
          simp only [List.length_cons, Nat.succ_lt_succ_iff] at h
          exact List.mem_cons_of_mem hd (ih i h)

theorem mem_getD {α : Type} (l : List α) (x : α) (d : α) (hx : x ∈ l) :
    ∃ j, j < l.length ∧ l.getD j d = x := by
  induction l with
  | nil => simp at hx
  | cons hd tl ih =>
      rcases List.mem_cons.mp hx with h | h
      · exact ⟨0, by simp, by simp [List.getD, h.symm]⟩
      · obtain ⟨j, hj, hjx⟩ := ih h
        exact ⟨j + 1, by simpa using Nat.succ_lt_succ hj, by simpa [List.getD] using hjx⟩

theorem get?_eq_some_getD {α : Type} (l : List α) (i : Nat) (d : α) (h : i < l.length) :
    l.get? i = some (l.getD i d) := by
  induction l generalizing i with
  | nil => simp at h
  | cons hd tl ih =>
      cases i with
      | zero => simp [List.getD]
      | succ i =>
          simp only [List.length_cons, Nat.succ_lt_succ_iff] at h
          simpa [List.getD] using ih i h

theorem dget_mem {K V : Type} [DecidableEq K] (d : List (K × V)) (k : K) (v : V)
    (h : dget d k = some v) : (k, v) ∈ d := by
  induction d with
  | nil => simp [dget] at h
  | cons hd tl ih =>
      cases hd with
      | mk k1 v1 =>
          by_cases hh : k1 = k
          · subst hh
            simp only [dget, if_pos] at h
            cases h
            exact List.mem_cons_self _ _
          · simp only [dget, hh, if_false] at h
            exact List.mem_cons_of_mem _ (ih h)

theorem mem_dget_of_nodup {K V : Type} [DecidableEq K] (d : List (K × V)) (k : K) (v : V)
    (hnd : (d.map Prod.fst).Nodup) (h : (k, v) ∈ d) : dget d k = some v := by
  induction d with
  | nil => simp at h
  | cons hd tl ih =>
      simp only [List.map_cons, List.nodup_cons] at hnd
      rcases List.mem_cons.mp h with heq | hmem
      · rw [← heq]
        simp [dget]
      · by_cases hh : hd.1 = k
        · exfalso
          apply hnd.1
          rw [hh]
          exact List.mem_map_of_mem Prod.fst hmem
        · simp only [dget, hh, if_false]
          exact ih hnd.2 hmem

theorem mem_dset {K V : Type} [DecidableEq K] (d : List (K × V)) (k : K) (v : V)
    (p : K × V) (h : p ∈ dset d k v) : p = (k, v) ∨ p ∈ d := by
  induction d with
  | nil => simpa [dset] using h
  | cons hd tl ih =>
      by_cases hh : hd.1 = k
      · simp only [dset, hh, if_pos] at h
        rcases List.mem_cons.mp h with heq | hmem
        · exact Or.inl heq
        · exact Or.inr (List.mem_cons_of_mem hd hmem)
      · simp only [dset, hh, if_neg, if_false] at h
        rcases List.mem_cons.mp h with heq | hmem
        · exact Or.inr (heq ▸ List.mem_cons_self hd tl)
        · rcases ih hmem with h2 | h2
          · exact Or.inl h2
          · exact Or.inr (List.mem_cons_of_mem hd h2)

theorem mem_foldl_dset (m : Module) (ts : List Nat) (d : List (Nat × Module))
    (p : Nat × Module) (h : p ∈ ts.foldl (fun acc t => dset acc t m) d) :
    p.2 = m ∨ p ∈ d := by
  induction ts generalizing d with
  | nil => exact Or.inr h
  | cons t ts ih =>
      rcases ih (dset d t m) h with h2 | h2
      · exact Or.inl h2
      · rcases mem_dset d t m p h2 with h3 | h3
        · left
          rw [h3]
        · exact Or.inr h3

theorem mem_disableStep (name : String) (acc : List (Nat × Module)) (t : Nat)
    (p : Nat × Module) (h : p ∈ disableStep name acc t) : p ∈ acc := by
  cases hd : dget acc t with
  | none =>
      simp only [disableStep, hd] at h
      exact h
  | some mod =>
      simp only [disableStep, hd] at h
      by_cases hn : mod.name = name
      · rw [if_pos hn] at h
        exact List.mem_of_mem_filter h
      · rwa [if_neg hn] at h

theorem mem_foldl_disable (name : String) (ts : List Nat) (d : List (Nat × Module))
    (p : Nat × Module) (h : p ∈ ts.foldl (disableStep name) d) : p ∈ d := by
  induction ts generalizing d with
  | nil => exact h
  | cons t ts ih => exact mem_disableStep name d t p (ih (disableStep name d t) h)

theorem dget_disableStep (name : String) (acc : List (Nat × Module)) (t0 t : Nat) :
    dget (disableStep name acc t0) t = none ∨
    dget (disableStep name acc t0) t = dget acc t := by
  cases hd : dget acc t0 with
  | none =>
      simp [disableStep, hd]
  | some mod =>
      simp only [disableStep, hd]
      by_cases hn : mod.name = name
      · rw [if_pos hn]
        by_cases ht : t = t0
        · rw [ht, dget_ddel_self]
          exact Or.inl rfl
        · exact Or.inr (dget_ddel_ne acc t0 t ht)
      · rw [if_neg hn]
        exact Or.inr rfl

theorem dget_foldl_disable (name : String) (ts : List Nat) (d : List (Nat × Module))
    (t : Nat) :
    dget (ts.foldl (disableStep name) d) t = none ∨
    dget (ts.foldl (disableStep name) d) t = dget d t := by
  induction ts generalizing d with
  | nil => exact Or.inr rfl
  | cons t0 ts ih =>
      rw [List.foldl_cons]
      rcases ih (disableStep name d t0) with h | h
      · exact Or.inl h
      · rcases dget_disableStep name d t0 t with h2 | h2
        · rw [h, h2]
          exact Or.inl rfl
        · rw [h, h2]
          exact Or.inr rfl

theorem dget_foldl_disable_none (name : String) (ts : List Nat)
    (d : List (Nat × Module)) (t : Nat) (ht : t ∈ ts)
    (hall : ∀ mod, dget d t = some mod → mod.name = name) :
    dget (ts.foldl (disableStep name) d) t = none := by
  induction ts generalizing d with
  | nil => simp at ht
  | cons t0 ts ih =>
      rw [List.foldl_cons]
      by_cases hcase : t = t0
      · subst hcase
        have hnone : dget (disableStep name d t) t = none := by
          cases hd : dget d t with
          | none =>
              simp only [disableStep, hd]
          | some mod =>
              simp only [disableStep, hd]
              rw [if_pos (hall mod hd), dget_ddel_self]
        rcases dget_foldl_disable name ts (disableStep name d t) t with h | h
        · exact h
        · rw [h, hnone]
      · have ht2 : t ∈ ts := by
          rcases List.mem_cons.mp ht with h | h
          · exact absurd h hcase
          · exact h
        refine ih (disableStep name d t0) ht2 ?_
        intro mod hmod
        rcases dget_disableStep name d t0 t with h | h
        · rw [h] at hmod
          cases hmod
        · rw [h] at hmod
          exact hall mod hmod

theorem nodup_keys_ddel {K V : Type} [DecidableEq K] (d : List (K × V)) (k : K)
    (h : (d.map Prod.fst).Nodup) : ((ddel d k).map Prod.fst).Nodup := by
  have hsub : ((ddel d k).map Prod.fst).Sublist (d.map Prod.fst) :=
    List.Sublist.map Prod.fst (List.filter_sublist d)
  exact List.Nodup.sublist hsub h

theorem nodup_keys_disableStep (name : String) (acc : List (Nat × Module)) (t : Nat)
    (h : (acc.map Prod.fst).Nodup) :
    ((disableStep name acc t).map Prod.fst).Nodup := by
  cases hd : dget acc t with
  | none =>
      simp only [disableStep, hd]
      exact h
  | some mod =>
      simp only [disableStep, hd]
      by_cases hn : mod.name = name
      · rw [if_pos hn]
        exact nodup_keys_ddel acc t h
      · rwa [if_neg hn]

theorem nodup_keys_foldl_disable (name : String) (ts : List Nat)
    (d : List (Nat × Module)) (h : (d.map Prod.fst).Nodup) :
    ((ts.foldl (disableStep name) d).map Prod.fst).Nodup := by
  induction ts generalizing d with
  | nil => exact h
  | cons t ts ih => exact ih (disableStep name d t) (nodup_keys_disableStep name d t h)

theorem waitPhase_mem (n : Nat) :
    ∀ e ∈ waitPhase n, e = LoopEvent.netProcess ∨ e = LoopEvent.incomingSend := by
  induction n with
  | zero => simp [waitPhase]
  | succ n ih =>
      intro e he
      rcases he with _ | ⟨_, h⟩
      · exact Or.inl rfl
      · rcases h with _ | ⟨_, h2⟩
        · exact Or.inr rfl
        · exact ih e h2

/-- C1: in every iteration of the server loop, the packet handler's
`syncLogs` runs after the wait phase that ends when the mix interval
elapses — a phase consisting only of network servicing and incoming-queue
drains — and immediately before `mixPool.mix()` distributes the tick's
batch, which itself precedes the outgoing-queue and module-manager flushes;
nothing but queue cleaning follows. -/
theorem serverLoop_sync_before_mix (polls : Nat) (shred : Bool) :
    ∃ pre post, loopIteration polls shred =
        pre ++ [LoopEvent.syncLogs, LoopEvent.mixBatch, LoopEvent.outgoingSend,
          LoopEvent.moduleSend] ++ post ∧
      (∀ e ∈ pre, e = LoopEvent.netProcess ∨ e = LoopEvent.incomingSend) ∧
      (∀ e ∈ post, e = LoopEvent.cleanQueues) := by
  refine ⟨waitPhase polls, if shred then [LoopEvent.cleanQueues] else [], rfl,
    waitPhase_mem polls, ?_⟩
  intro e he
  cases shred with
  | true => simpa using he
  | false => simp at he

/-- C2 (amended): for every query time `t` against a sorted non-empty
key-interval list in which some interval has `valid_after < t`, the lookup
branch of `_getLiveKey` returns the interval with the LARGEST `valid_after`
STRICTLY BELOW `t` (with no check of its `valid_until`); and while
`t < nextKeyRotation` the cached live key is returned without performing
the lookup. -/
theorem getLiveKey_strict_max (ivs : List KeyInterval) (t : Int)
    (hsort : SortedByVa ivs) (hex : ∃ k ∈ ivs, k.va < t) :
    (∃ k, getLiveKeyAt ivs t = some k ∧ k ∈ ivs ∧ k.va < t ∧
      ∀ k2 ∈ ivs, k2.va < t → k2.va ≤ k.va) ∧
    (∀ st now, st.keyIntervals ≠ [] → now < st.nextKeyRotation →
      getLiveKeyNow st now = (st.liveKey, st)) := by
  obtain ⟨k0, hk0m, hk0⟩ := hex
  have hne : ivs ≠ [] := by
    intro h
    rw [h] at hk0m
    simp at hk0m
  obtain ⟨hrle, hlow, hhigh⟩ := bisect_inv ivs t hsort
  obtain ⟨j, hj, hjeq⟩ := mem_getD ivs k0 ⟨0, 0, ""⟩ hk0m
  have hr1 : bisect ivs t ≠ 0 := by
    intro h0
    have := hhigh j (by omega) hj
    rw [hjeq] at this
    omega
  have hrm1 : bisect ivs t - 1 < ivs.length := by omega
  have hget : getLiveKeyAt ivs t = some (ivs.getD (bisect ivs t - 1) ⟨0, 0, ""⟩) := by
    simp only [getLiveKeyAt, liveKeyLookup, hne, if_false, hr1]
    exact get?_eq_some_getD ivs (bisect ivs t - 1) ⟨0, 0, ""⟩ hrm1
  refine ⟨⟨ivs.getD (bisect ivs t - 1) ⟨0, 0, ""⟩, hget,
    getD_mem ivs _ _ hrm1, hlow _ (by omega), ?_⟩, ?_⟩
  · intro k2 hk2m hk2
    obtain ⟨j2, hj2, hj2eq⟩ := mem_getD ivs k2 ⟨0, 0, ""⟩ hk2m
    by_cases hcase : bisect ivs t ≤ j2
    · have := hhigh j2 hcase hj2
      rw [hj2eq] at this
      omega
    · have hle : j2 ≤ bisect ivs t - 1 := by omega
      have := hsort (bisect ivs t - 1) hrm1 j2 hle
      rw [hj2eq] at this
      exact this
  · intro st now hne2 hlt
    simp [getLiveKeyNow, hne2, hlt]

/-- C2 is false as stated: querying `c2Intervals` at time 30, the interval
with the largest `valid_after ≤ 30` is `0002` (a member, with
`valid_after = 30 ≤ 30` and `valid_until = 40 > 30`), yet the lookup
returns `0001`, and the `when = None` path installs that interval — whose
`valid_until = 20` has already passed — as the cached live key. -/
theorem getLiveKey_boundary_counterexample :
    getLiveKeyAt c2Intervals 30 = some ⟨10, 20, "0001"⟩ ∧
    getLiveKeyNow ⟨c2Intervals, none, 0⟩ 30 =
      (some ⟨10, 20, "0001"⟩, ⟨c2Intervals, some ⟨10, 20, "0001"⟩, 20⟩) ∧
    (⟨30, 40, "0002"⟩ : KeyInterval) ∈ c2Intervals ∧
    (30 : Int) ≤ 30 ∧ (30 : Int) < 40 ∧ ¬ ((30 : Int) < 20) := by
  refine ⟨rfl, rfl, by decide, by decide, by decide, by decide⟩

/-- Witness for C2: the amended lookup characterization applied to
`c2Intervals` at time 25, with sortedness and the strict-bound existence
discharged by evaluation. -/
theorem getLiveKey_strict_max_witness :
    (∃ k, getLiveKeyAt c2Intervals 25 = some k ∧ k ∈ c2Intervals ∧ k.va < 25 ∧
      ∀ k2 ∈ c2Intervals, k2.va < 25 → k2.va ≤ k.va) ∧
    (∀ st now, st.keyIntervals ≠ [] → now < st.nextKeyRotation →
      getLiveKeyNow st now = (st.liveKey, st)) :=
  getLiveKey_strict_max c2Intervals 25 (by decide) (by decide)

/-- C3: evaluating the incoming drain on a batch holding a relay message,
a padding message (handle 2) and a malformed message shows the padding
packet is never inserted into the mix pool — but, contrary to the claim,
its entry receives neither `deliverySucceeded` nor `deliveryFailed`, so its
on-disk queue entry remains pending instead of being removed. -/
theorem incomingPadding_not_removed :
    deliverMessages c3Handler c3Batch =
      ⟨[MixObject.queue (1, 2, []) [3]], [1], [3]⟩ ∧
    remainsPending c3Batch (deliverMessages c3Handler c3Batch) = [(2, [0])] := by
  constructor
  · rfl
  · rfl

/-- C7 (amended): every call to `createKeys` assigns fresh integer names —
pairwise distinct and outside the existing range `[firstKey, lastKey]` —
namely `firstKey - 1` while `firstKey > 1` and `lastKey + 1` otherwise;
when no keys exist (`firstKey = maxint`) the first name is 1 and the range
continues from `(1, 1)`. -/
theorem createKeys_fresh_numbering :
    (∀ num f l, 1 ≤ f → f ≤ l → f < maxint →
      (createKeysNums num f l).Pairwise (fun a b => a ≠ b) ∧
      (∀ k ∈ createKeysNums num f l, k < f ∨ l < k) ∧
      (0 < num → (createKeysNums num f l).head? =
        some (if 1 < f then f - 1 else l + 1))) ∧
    (∀ num, createKeysNums (num + 1) maxint 0 = 1 :: createKeysNums num 1 1) := by
  constructor
  · intro num
    induction num with
    | zero =>
        intro f l h1 h2 h3
        refine ⟨by simp [createKeysNums], by simp [createKeysNums], ?_⟩
        intro h
        omega
    | succ num ih =>
        intro f l h1 h2 h3
        have hfm : ¬ f = maxint := by omega
        by_cases hgt : 1 < f
        · have heq : createKeysNums (num + 1) f l =
              (f - 1) :: createKeysNums num (f - 1) l := by
            simp only [createKeysNums]
            rw [if_neg hfm, if_pos hgt]
          obtain ⟨hpw, helts, _⟩ := ih (f - 1) l (by omega) (by omega) (by omega)
          rw [heq]
          refine ⟨List.pairwise_cons.mpr ⟨?_, hpw⟩, ?_, ?_⟩
          · intro k hk
            have := helts k hk
            omega
          · intro k hk
            rcases List.mem_cons.mp hk with h | h
            · omega
            · have := helts k h
              omega
          · intro _
            simp [hgt]
        · have heq : createKeysNums (num + 1) f l =
              (l + 1) :: createKeysNums num f (l + 1) := by
            simp only [createKeysNums]
            rw [if_neg hfm, if_neg hgt]
          obtain ⟨hpw, helts, _⟩ := ih f (l + 1) (by omega) (by omega) (by omega)
          rw [heq]
          refine ⟨List.pairwise_cons.mpr ⟨?_, hpw⟩, ?_, ?_⟩
          · intro k hk
            have := helts k hk
            omega
          · intro k hk
            rcases List.mem_cons.mp hk with h | h
            · omega
            · have := helts k h
              omega
          · intro _
            simp [hgt]
  · intro num
    simp [createKeysNums]

/-- C7 is false as stated: with keysets 3 and 4 on disk
(`keyRange = (3, 4)`), `createKeys` assigns the name 2 — neither the lowest
unused name (1) nor an extension past the last existing key (5). -/
theorem createKeys_not_lowest_unused :
    createKeysNums 1 3 4 = [2] ∧ lowestUnused [3, 4] = 1 ∧
    (2 : Nat) ≠ 1 ∧ (2 : Nat) ≠ 5 := by
  refine ⟨?_, by decide, by decide, by decide⟩
  decide

/-- Witness for C7: the amended numbering applied to `keyRange = (3, 4)`
for two keys (names 2, then 1) and to an empty keyring. -/
theorem createKeys_fresh_numbering_witness :
    ((createKeysNums 2 3 4).Pairwise (fun a b => a ≠ b) ∧
      (∀ k ∈ createKeysNums 2 3 4, k < 3 ∨ 4 < k) ∧
      (0 < 2 → (createKeysNums 2 3 4).head? =
        some (if 1 < 3 then 3 - 1 else 4 + 1))) ∧
    createKeysNums 3 maxint 0 = 1 :: createKeysNums 2 1 1 :=
  ⟨createKeys_fresh_numbering.1 2 3 4 (by decide) (by decide) (by decide),
   createKeys_fresh_numbering.2 2⟩

/-- C8: on intervals sorted by `valid_after` whose expired member is not a
prefix of the list, `removeDeadKeys` deletes exactly the expired keyset
(`0002`) but logs the name and validity interval of the unfiltered list's
first entry (`0001`): the removal is never logged with the removed
keyset's own name and interval. -/
theorem removeDeadKeys_log_mismatch :
    removeDeadKeysActions c8Intervals 50 0 = (["0002"], [("0001", 0, 100)]) ∧
    ("0002", (10 : Int), (20 : Int)) ∉ (removeDeadKeysActions c8Intervals 50 0).2 := by
  constructor
  · rfl
  · decide

/-- C9: on a filesystem where `home/work/tls/dhparam` exists (and no file
is literally named `dhfile`), `removeIdentityKey` deletes nothing: the
existence test checks the literal string `'dhfile'`, so the DH parameters
file is not securely deleted although it exists. -/
theorem removeIdentityKey_dh_not_deleted :
    removeIdentityKey "home" "home/keys" c9Fs = [] ∧
    "home/work/tls/dhparam" ∈ c9Fs := by
  constructor
  · rfl
  · decide

/-- C10 (amended): the queue invariant — every exit type mapped in
`typeToModule` names a module with an entry in `queues` — holds after
construction, is preserved by every `enableModule` call, and is preserved
by a `disableModule` call provided the map's bindings are duplicate-free
and every exit type bound to a module bearing the disabled module's name is
among the disabled module's own exit types (as when enabled module names
are unique); given the invariant, the queue lookup inside `queueMessage`
never fails. -/
theorem moduleManager_queueInv :
    QueuesInv mmInit ∧
    (∀ st m, QueuesInv st → QueuesInv (enableModule st m)) ∧
    (∀ st m, QueuesInv st → (st.typeToModule.map Prod.fst).Nodup →
      (∀ p ∈ st.typeToModule, p.2.name = m.name → p.1 ∈ m.exitTypes) →
      QueuesInv (disableModule st m)) ∧
    (∀ decode st message tag exitType address, QueuesInv st →
      (queueMessage decode st message tag exitType address).isSome = true) := by
  refine ⟨?_, ?_, ?_, ?_⟩
  · intro p hp
    simp [mmInit] at hp
  · intro st m hinv p hp
    simp only [enableModule] at hp ⊢
    rcases mem_foldl_dset m m.exitTypes st.typeToModule p hp with h | h
    · rw [h, dget_dset_self]
      rfl
    · by_cases hn : p.2.name = m.name
      · rw [hn, dget_dset_self]
        rfl
      · rw [dget_dset_ne st.queues m.name p.2.name [] hn]
        exact hinv p h
  · intro st m hinv hnd hname p hp
    have hmem : p ∈ st.typeToModule := mem_foldl_disable m.name m.exitTypes _ p hp
    have hneq : p.2.name ≠ m.name := by
      intro heq
      have hty : p.1 ∈ m.exitTypes := hname p hmem heq
      have hdg : dget st.typeToModule p.1 = some p.2 := by
        have := mem_dget_of_nodup st.typeToModule p.1 p.2 hnd
        cases p with
        | mk a b => exact this (by assumption)
      have hnone : dget (m.exitTypes.foldl (disableStep m.name) st.typeToModule) p.1 =
          none := by
        refine dget_foldl_disable_none m.name m.exitTypes st.typeToModule p.1 hty ?_
        intro mod hmod
        rw [hdg] at hmod
        cases hmod
        exact heq
      have hnd2 : ((m.exitTypes.foldl (disableStep m.name) st.typeToModule).map
          Prod.fst).Nodup :=
        nodup_keys_foldl_disable m.name m.exitTypes st.typeToModule hnd
      have hsome : dget (m.exitTypes.foldl (disableStep m.name) st.typeToModule) p.1 =
          some p.2 := by
        have := mem_dget_of_nodup _ p.1 p.2 hnd2
        cases p with
        | mk a b => exact this (by assumption)
      rw [hnone] at hsome
      cases hsome
    rw [disableModule]
    rw [dget_ddel_ne st.queues m.name p.2.name hneq]
    exact hinv p hmem
  · intro decode st message tag exitType address hinv
    cases hty : dget st.typeToModule exitType with
    | none => simp [queueMessage, hty]
    | some mod =>
        have hmem : (exitType, mod) ∈ st.typeToModule := dget_mem _ _ _ hty
        have hq := hinv (exitType, mod) hmem
        cases hq2 : dget st.queues mod.name with
        | none =>
            rw [hq2] at hq
            cases hq
        | some q =>
            cases hdec : decode message tag <;>
              simp [queueMessage, hty, hq2, hdec]

/-- C10 is false as stated: enabling two modules that share the name `A`
(for exit types 1 and 2) yields a state satisfying the invariant, but
disabling the second deletes the shared queue entry while exit type 1
stays mapped, breaking the invariant — and the queue lookup inside
`queueMessage` then fails (`none`, a `KeyError`) for exit type 1. -/
theorem moduleManager_inv_broken_by_disable :
    QueuesInv c10Enabled ∧ ¬ QueuesInv c10Broken ∧
    dget c10Broken.typeToModule 1 = some c10ModA ∧
    dget c10Broken.queues "A" = none ∧
    queueMessage c10Decoder c10Broken [1] none 1 [2] = none := by
  refine ⟨by decide, by decide, by decide, by decide, by decide⟩

/-- Witness for C10: the invariant clauses applied to the enabling and
disabling of a single module, and to a dispatched `queueMessage` call. -/
theorem moduleManager_queueInv_witness :
    QueuesInv (enableModule mmInit c10ModA) ∧
    QueuesInv (disableModule (enableModule mmInit c10ModA) c10ModA) ∧
    (queueMessage c10Decoder (enableModule mmInit c10ModA) [1] none 1 [2]).isSome =
      true := by
  refine ⟨moduleManager_queueInv.2.1 mmInit c10ModA ?_, ?_, ?_⟩
  · decide
  · refine moduleManager_queueInv.2.2.1 (enableModule mmInit c10ModA) c10ModA ?_ ?_ ?_
    · decide
    · decide
    · decide
  · refine moduleManager_queueInv.2.2.2 c10Decoder (enableModule mmInit c10ModA)
      [1] none 1 [2] ?_
    decide

/-- C4: when a module is enabled for an exit type (its binding and queue
both present), `queueMessage` enqueues exactly one entry on that module's
queue — all other queues and the type map unchanged — whose tag and payload
follow the decoder's outcome: tag `None` with the cleartext on success, the
original tag with the ciphertext when the decoder reports still-encrypted,
and the sentinel tag `'err'` with the ciphertext when the decoder raises. -/
theorem queueMessage_dispatch (decode : Decoder) (st : MMState) (message : PyStr)
    (tag : Option PyStr) (exitType : Nat) (address : PyStr) (mod : Module)
    (q : List QueueEntry)
    (hmod : dget st.typeToModule exitType = some mod)
    (hq : dget st.queues mod.name = some q) :
    ∃ e : QueueEntry, ∃ st2 : MMState,
      queueMessage decode st message tag exitType address = some st2 ∧
      st2.typeToModule = st.typeToModule ∧
      dget st2.queues mod.name = some (q ++ [e]) ∧
      (∀ n, n ≠ mod.name → dget st2.queues n = dget st.queues n) ∧
      e.exitType = exitType ∧ e.address = address ∧
      (∀ payload, decode message tag = DecodeOutcome.ok payload →
        e.tag = none ∧ e.message = payload) ∧
      (decode message tag = DecodeOutcome.stillEncrypted →
        e.tag = tag ∧ e.message = message) ∧
      (decode message tag = DecodeOutcome.raisesMixError →
        e.tag = some errTag ∧ e.message = message) := by
  cases hdec : decode message tag with
  | ok payload =>
      refine ⟨⟨exitType, address, none, payload⟩,
        { st with queues := dset st.queues mod.name (q ++ [⟨exitType, address, none, payload⟩]) },
        ?_, rfl, dget_dset_self _ _ _, ?_, rfl, rfl, ?_, ?_, ?_⟩
      · simp [queueMessage, hmod, hq, hdec]
      · intro n hn
        exact dget_dset_ne st.queues mod.name n _ hn
      · intro payload2 h2
        cases h2
        exact ⟨rfl, rfl⟩
      · intro h2
        cases h2
      · intro h2
        cases h2
  | stillEncrypted =>
      refine ⟨⟨exitType, address, tag, message⟩,
        { st with queues := dset st.queues mod.name (q ++ [⟨exitType, address, tag, message⟩]) },
        ?_, rfl, dget_dset_self _ _ _, ?_, rfl, rfl, ?_, ?_, ?_⟩
      · simp [queueMessage, hmod, hq, hdec]
      · intro n hn
        exact dget_dset_ne st.queues mod.name n _ hn
      · intro payload2 h2
        cases h2
      · intro _
        exact ⟨rfl, rfl⟩
      · intro h2
        cases h2
  | raisesMixError =>
      refine ⟨⟨exitType, address, some errTag, message⟩,
        { st with queues := dset st.queues mod.name (q ++ [⟨exitType, address, some errTag, message⟩]) },
        ?_, rfl, dget_dset_self _ _ _, ?_, rfl, rfl, ?_, ?_, ?_⟩
      · simp [queueMessage, hmod, hq, hdec]
      · intro n hn
        exact dget_dset_ne st.queues mod.name n _ hn
      · intro payload2 h2
        cases h2
      · intro h2
        cases h2
      · intro _
        exact ⟨rfl, rfl⟩

/-- Witness for C4: the dispatch theorem applied to the enabled MBOX-like
module for exit type 257 with a decoder that decodes successfully. -/
theorem queueMessage_dispatch_witness :
    ∃ e : QueueEntry, ∃ st2 : MMState,
      queueMessage c4Decoder c4State [1, 2] none 257 [97] = some st2 ∧
      st2.typeToModule = c4State.typeToModule ∧
      dget st2.queues c4Module.name = some ([] ++ [e]) ∧
      (∀ n, n ≠ c4Module.name → dget st2.queues n = dget c4State.queues n) ∧
      e.exitType = 257 ∧ e.address = [97] ∧
      (∀ payload, c4Decoder [1, 2] none = DecodeOutcome.ok payload →
        e.tag = none ∧ e.message = payload) ∧
      (c4Decoder [1, 2] none = DecodeOutcome.stillEncrypted →
        e.tag = none ∧ e.message = [1, 2]) ∧
      (c4Decoder [1, 2] none = DecodeOutcome.raisesMixError →
        e.tag = some errTag ∧ e.message = [1, 2]) :=
  queueMessage_dispatch c4Decoder c4State [1, 2] none 257 [97] c4Module []
    (by decide) (by decide)

theorem relayOutputs_congr (p1 p2 : List (Nat × MixObject)) (hs : List Nat)
    (h : ∀ x ∈ hs, dget p1 x = dget p2 x) :
    relayOutputs p1 hs = relayOutputs p2 hs := by
  induction hs with
  | nil => rfl
  | cons x hs ih =>
      simp only [relayOutputs, List.filterMap_cons]
      rw [h x (List.mem_cons_self x hs)]
      have ih2 := ih (fun y hy => h y (List.mem_cons_of_mem x hy))
      simp only [relayOutputs] at ih2
      rw [ih2]

theorem exitCalls_congr (p1 p2 : List (Nat × MixObject)) (hs : List Nat)
    (h : ∀ x ∈ hs, dget p1 x = dget p2 x) :
    exitCalls p1 hs = exitCalls p2 hs := by
  induction hs with
  | nil => rfl
  | cons x hs ih =>
      simp only [exitCalls, List.filterMap_cons]
      rw [h x (List.mem_cons_self x hs)]
      have ih2 := ih (fun y hy => h y (List.mem_cons_of_mem x hy))
      simp only [exitCalls] at ih2
      rw [ih2]

/-- C6: if `mix` succeeds on a duplicate-free batch, then the outgoing
queue receives exactly the batch's QUEUE decisions
(`queueDeliveryMessage(ipv4, msg)`, appended in batch order), the module
manager results from dispatching exactly the batch's EXIT decisions
(`queueMessage(payload, tag, rt, ri)`, in batch order — an unknown exit
type is only logged and the handle is not retried), and every batch handle
is removed from the pool while all other handles are untouched. -/
theorem mix_routes (decode : Decoder) (st st2 : MixServerState) (batch : List Nat)
    (hnodup : batch.Nodup)
    (hmix : mix decode st batch = some st2) :
    st2.outgoing = st.outgoing ++ relayOutputs st.pool batch ∧
    routeExits decode st.modules (exitCalls st.pool batch) = some st2.modules ∧
    (∀ h ∈ batch, dget st2.pool h = none) ∧
    (∀ h, h ∉ batch → dget st2.pool h = dget st.pool h) := by
  induction batch generalizing st with
  | nil =>
      simp only [mix] at hmix
      cases hmix
      refine ⟨by simp [relayOutputs], rfl, by simp, fun h _ => rfl⟩
  | cons h0 hs ih =>
      have hnd2 : hs.Nodup := (List.nodup_cons.mp hnodup).2
      have hnm : h0 ∉ hs := (List.nodup_cons.mp hnodup).1
      have hpools : ∀ x ∈ hs, dget (ddel st.pool h0) x = dget st.pool x := by
        intro x hx
        exact dget_ddel_ne st.pool h0 x (fun hxeq => hnm (hxeq ▸ hx))
      simp only [mix] at hmix
      cases hobj : dget st.pool h0 with
      | none =>
          simp only [mixStep, hobj] at hmix
          cases hmix
      | some obj =>
          cases obj with
          | exit rt ri ak tag payload =>
              simp only [mixStep, hobj] at hmix
              cases hqm : queueMessage decode st.modules payload tag rt ri with
              | none =>
                  simp only [hqm] at hmix
                  cases hmix
              | some mm =>
                  simp only [hqm] at hmix
                  obtain ⟨ihout, ihexit, ihmem, ihrest⟩ := ih _ hnd2 hmix
                  dsimp only at ihout ihexit ihrest
                  refine ⟨?_, ?_, ?_, ?_⟩
                  · rw [ihout, relayOutputs_congr _ _ hs hpools]
                    simp only [relayOutputs, List.filterMap_cons, hobj]
                  · have hcalls : exitCalls st.pool (h0 :: hs) =
                        (payload, tag, rt, ri) :: exitCalls st.pool hs := by
                      simp only [exitCalls, List.filterMap_cons, hobj]
                    rw [hcalls]
                    simp only [routeExits, hqm]
                    rw [← exitCalls_congr _ _ hs hpools]
                    exact ihexit
                  · intro x hx
                    rcases List.mem_cons.mp hx with hxeq | hxmem
                    · subst hxeq
                      rw [ihrest x hnm]
                      exact dget_ddel_self _ _
                    · exact ihmem x hxmem
                  · intro x hx
                    have hx1 : x ≠ h0 := fun hxeq => hx (hxeq ▸ List.mem_cons_self h0 hs)
                    have hx2 : x ∉ hs := fun hxmem => hx (List.mem_cons_of_mem h0 hxmem)
                    rw [ihrest x hx2]
                    exact dget_ddel_ne st.pool h0 x hx1
          | queue ipv4 msg =>
              simp only [mixStep, hobj] at hmix
              obtain ⟨ihout, ihexit, ihmem, ihrest⟩ := ih _ hnd2 hmix
              dsimp only at ihout ihexit ihrest
              refine ⟨?_, ?_, ?_, ?_⟩
              · rw [ihout, relayOutputs_congr _ _ hs hpools]
                simp only [relayOutputs, List.filterMap_cons, hobj, List.append_assoc,
                  List.singleton_append]
              · have hcalls : exitCalls st.pool (h0 :: hs) = exitCalls st.pool hs := by
                  simp only [exitCalls, List.filterMap_cons, hobj]
                rw [hcalls]
                rw [← exitCalls_congr _ _ hs hpools]
                exact ihexit
              · intro x hx
                rcases List.mem_cons.mp hx with hxeq | hxmem
                · subst hxeq
                  rw [ihrest x hnm]
                  exact dget_ddel_self _ _
                · exact ihmem x hxmem
              · intro x hx
                have hx1 : x ≠ h0 := fun hxeq => hx (hxeq ▸ List.mem_cons_self h0 hs)
                have hx2 : x ∉ hs := fun hxmem => hx (List.mem_cons_of_mem h0 hxmem)
                rw [ihrest x hx2]
                exact dget_ddel_ne st.pool h0 x hx1

/-- Witness for C6: the routing theorem applied to a concrete pool holding
one EXIT and one QUEUE object, mixed with batch `[1, 2]`. -/
theorem mix_routes_witness :
    c6Final.outgoing = c6State.outgoing ++ relayOutputs c6State.pool [1, 2] ∧
    routeExits c4Decoder c6State.modules (exitCalls c6State.pool [1, 2]) =
      some c6Final.modules ∧
    (∀ h ∈ [1, 2], dget c6Final.pool h = none) ∧
    (∀ h, h ∉ [1, 2] → dget c6Final.pool h = dget c6State.pool h) :=
  mix_routes c4Decoder c6State c6Final [1, 2] (by decide) (by decide)

theorem b64val_b64char : ∀ n, n < 64 → b64val (b64char n) = some n := by decide

theorem b64char_ne_pad : ∀ n, n < 64 → b64char n ≠ padChar := by decide

theorem isB64OrPad_b64char : ∀ n, n < 64 → isB64OrPad (b64char n) = true := by decide

theorem isB64OrPad_pad : isB64OrPad padChar = true := by decide

theorem isB64OrPad_nl : isB64OrPad nlChar = false := by decide

theorem encGroups_keep : ∀ bs : PyStr, (∀ b ∈ bs, b < 256) →
    ∀ c ∈ encGroups bs, isB64OrPad c = true
  | [], _, c, hc => by simp [encGroups] at hc
  | [a], h, c, hc => by
      have ha : a < 256 := h a (by simp)
      simp only [encGroups, List.mem_cons, List.not_mem_nil, or_false] at hc
      rcases hc with rfl | rfl | rfl | rfl
      · exact isB64OrPad_b64char _ (by omega)
      · exact isB64OrPad_b64char _ (by omega)
      · exact isB64OrPad_pad
      · exact isB64OrPad_pad
  | [a, b], h, c, hc => by
      have ha : a < 256 := h a (by simp)
      have hb : b < 256 := h b (by simp)
      simp only [encGroups, List.mem_cons, List.not_mem_nil, or_false] at hc
      rcases hc with rfl | rfl | rfl | rfl
      · exact isB64OrPad_b64char _ (by omega)
      · exact isB64OrPad_b64char _ (by omega)
      · exact isB64OrPad_b64char _ (by omega)
      · exact isB64OrPad_pad
  | a :: b :: cc :: rest, h, c, hc => by
      have ha : a < 256 := h a (by simp)
      have hb : b < 256 := h b (by simp)
      have hcc : cc < 256 := h cc (by simp)
      simp only [encGroups, List.mem_cons] at hc
      rcases hc with rfl | rfl | rfl | rfl | hc
      · exact isB64OrPad_b64char _ (by omega)
      · exact isB64OrPad_b64char _ (by omega)
      · exact isB64OrPad_b64char _ (by omega)
      · exact isB64OrPad_b64char _ (by omega)
      · exact encGroups_keep rest (fun x hx => h x (by simp [hx])) c hc

theorem encGroups_append : ∀ bs1 : PyStr, bs1.length % 3 = 0 → ∀ bs2 : PyStr,
    encGroups (bs1 ++ bs2) = encGroups bs1 ++ encGroups bs2
  | [], _, bs2 => by simp [encGroups]
  | [a], h, bs2 => by simp at h
  | [a, b], h, bs2 => by simp at h
  | a :: b :: c :: rest, h, bs2 => by
      have h2 : rest.length % 3 = 0 := by
        simp only [List.length_cons] at h
        omega
      have ih := encGroups_append rest h2 bs2
      simp only [List.cons_append, encGroups, List.append_assoc, List.append_eq] at ih ⊢
      rw [ih]

theorem filter_encodestringFuel : ∀ fuel : Nat, ∀ s : PyStr, s.length ≤ fuel →
    (∀ b ∈ s, b < 256) →
    (encodestringFuel fuel s).filter isB64OrPad = encGroups s := by
  intro fuel
  induction fuel with
  | zero =>
      intro s hlen _
      have hnil : s = [] := List.eq_nil_of_length_eq_zero (by omega)
      subst hnil
      simp [encodestringFuel, encGroups]
  | succ fuel ih =>
      intro s hlen hb
      by_cases hs : s = []
      · subst hs
        simp [encodestringFuel, encGroups]
      · have hpos : 0 < s.length := List.length_pos.mpr hs
        simp only [encodestringFuel, if_neg hs]
        rw [List.filter_append, List.filter_cons]
        simp only [isB64OrPad_nl, if_false, Bool.false_eq_true]
        have h1 : (encGroups (s.take 57)).filter isB64OrPad = encGroups (s.take 57) :=
          List.filter_eq_self.mpr
            (encGroups_keep (s.take 57) (fun b hb2 => hb b (List.take_subset 57 s hb2)))
        rw [h1]
        have hdlen : (s.drop 57).length ≤ fuel := by
          rw [List.length_drop]
          omega
        rw [ih (s.drop 57) hdlen (fun b hb2 => hb b (List.drop_subset 57 s hb2))]
        by_cases hlen2 : 57 ≤ s.length
        · have ht : (s.take 57).length % 3 = 0 := by
            rw [List.length_take]
            omega
          rw [← encGroups_append _ ht (s.drop 57), List.take_append_drop]
        · have hd : s.drop 57 = [] := List.drop_eq_nil_of_le (by omega)
          have htk : s.take 57 = s := List.take_of_length_le (by omega)
          rw [hd, htk]
          simp [encGroups]

theorem decGroups_encGroups : ∀ bs : PyStr, (∀ b ∈ bs, b < 256) →
    decGroups (encGroups bs) = some bs
  | [], _ => rfl
  | [a], h => by
      have ha : a < 256 := h a (by simp)
      have h1 := b64val_b64char (a / 4) (by omega)
      have h2 := b64val_b64char (a % 4 * 16) (by omega)
      simp [encGroups, decGroups, h1, h2]
      all_goals omega
  | [a, b], h => by
      have ha : a < 256 := h a (by simp)
      have hb : b < 256 := h b (by simp)
      have h1 := b64val_b64char (a / 4) (by omega)
      have h2 := b64val_b64char (a % 4 * 16 + b / 16) (by omega)
      have h3 := b64val_b64char (b % 16 * 4) (by omega)
      have hne3 : b64char (b % 16 * 4) ≠ padChar := b64char_ne_pad _ (by omega)
      simp [encGroups, decGroups, h1, h2, h3, hne3]
      all_goals omega
  | a :: b :: c :: rest, h => by
      have ha : a < 256 := h a (by simp)
      have hb : b < 256 := h b (by simp)
      have hc : c < 256 := h c (by simp)
      have h1 := b64val_b64char (a / 4) (by omega)
      have h2 := b64val_b64char (a % 4 * 16 + b / 16) (by omega)
      have h3 := b64val_b64char (b % 16 * 4 + c / 64) (by omega)
      have h4 := b64val_b64char (c % 64) (by omega)
      have hne3 : b64char (b % 16 * 4 + c / 64) ≠ padChar := b64char_ne_pad _ (by omega)
      have hne4 : b64char (c % 64) ≠ padChar := b64char_ne_pad _ (by omega)
      have hrec := decGroups_encGroups rest (fun x hx => h x (by simp [hx]))
      simp [encGroups, decGroups, h1, h2, h3, h4, hne3, hne4, hrec]
      all_goals omega

theorem decodestring_encodestring (bs : PyStr) (h : ∀ b ∈ bs, b < 256) :
    decodestring (encodestring bs) = some bs := by
  unfold decodestring encodestring
  rw [filter_encodestringFuel bs.length bs (Nat.le_refl _) h, decGroups_encGroups bs h]

/-- C5: escaping a message for email with tag `None` yields the message
verbatim between the ANONYMOUS MESSAGE delimiters when every byte is
printable; otherwise the inner body is the message's base64 encoding, whose
decoding recovers the message exactly; and escaping with the sentinel tag
`'err'` yields no body. -/
theorem escape_email_roundtrip (x : PyStr) (hx : ∀ b ∈ x, b < 256) :
    (isPrintable x = true →
      escapeMessageForEmail x none = some (msgBegins ++ x ++ msgEnds)) ∧
    (isPrintable x = false →
      escapeMessageForEmail x none = some (msgBegins ++ encodestring x ++ msgEnds) ∧
      decodestring (encodestring x) = some x) ∧
    escapeMessageForEmail x (some errTag) = none := by
  refine ⟨?_, ?_, ?_⟩
  · intro hp
    simp [escapeMessageForEmail, escapeMessage, hp]
  · intro hp
    refine ⟨?_, decodestring_encodestring x hx⟩
    simp [escapeMessageForEmail, escapeMessage, hp]
  · simp [escapeMessageForEmail, escapeMessage]

/-- Witness for C5: the escape theorem applied to the two-byte message
`[104, 1]` (whose second byte is non-printing). -/
theorem escape_email_roundtrip_witness :
    (isPrintable [104, 1] = true →
      escapeMessageForEmail [104, 1] none = some (msgBegins ++ [104, 1] ++ msgEnds)) ∧
    (isPrintable [104, 1] = false →
      escapeMessageForEmail [104, 1] none =
        some (msgBegins ++ encodestring [104, 1] ++ msgEnds) ∧
      decodestring (encodestring [104, 1]) = some [104, 1]) ∧
    escapeMessageForEmail [104, 1] (some errTag) = none :=
  escape_email_roundtrip [104, 1] (by decide)

end Mixminion
